import Mathlib

/-!
Verification of the reconciliation core of the seller-apis repository
(src/seller.py and src/market.py): stock reconciliation, price
reconciliation, price-string normalization, list chunking, and the
orchestration traces of the two main entry points.

Inventory rows are modelled with their three fields already read out of the
spreadsheet dictionary: the stringified code (the source always uses
str(watch.get("Код"))), the quantity string (str(watch.get("Количество")))
and the raw price string (watch.get("Цена")).
-/

set_option linter.unusedVariables false

/-- An inventory row from the downloaded spreadsheet.  Fields correspond to
the dictionary keys the source reads: code = str of the "Код" field,
quantity = str of the "Количество" field, price = the "Цена" field. -/
structure Row where
  code : String
  quantity : String
  price : String
deriving DecidableEq, Repr

/-- Value of a nonempty all-digit character list, else failure. -/
def digitsVal? (l : List Char) : Option Nat :=
  if l ≠ [] ∧ l.all Char.isDigit then
    some (l.foldl (fun a c => 10 * a + (c.toNat - 48)) 0)
  else none

/-- Model of the Python builtin int() applied to a string: surrounding
whitespace is ignored, an optional sign precedes a nonempty run of digits;
anything else raises ValueError, modelled as none. -/
def pyInt? (s : String) : Option Int :=
  let t := ((s.data.dropWhile Char.isWhitespace).reverse.dropWhile
    Char.isWhitespace).reverse
  match t with
  | '-' :: rest => (digitsVal? rest).map (fun n => -(n : Int))
  | '+' :: rest => (digitsVal? rest).map (fun n => (n : Int))
  | l => (digitsVal? l).map (fun n => (n : Int))

/-- The sentinel quantity mapping shared by seller.create_stocks (lines
302-309) and market.create_stocks (lines 276-283): ">10" gives 100, "1"
gives 0, otherwise int() of the quantity string; none models the ValueError
raised by int() on a non-numeric string. -/
def stockOf (q : String) : Option Int :=
  if q = ">10" then some 100
  else if q = "1" then some 0
  else pyInt? q

/-- Model of the Python str.split(".") on a character list: splits at every
dot, keeping empty segments, so the head of the result is the prefix before
the first dot. -/
def pySplitDot : List Char → List (List Char)
  | [] => [[]]
  | c :: rest =>
    if c = '.' then [] :: pySplitDot rest
    else
      match pySplitDot rest with
      | [] => [[c]]
      | p :: ps => (c :: p) :: ps

/-- seller.price_conversion (line 397):
re.sub("[^0-9]", "", price.split(".")[0]) — keep only the digit characters
of the segment before the first dot. -/
def price_conversion (price : String) : String :=
  ⟨((pySplitDot price.data).headD []).filter Char.isDigit⟩

/-- Model of the Python range(0, stop, step) for a natural stop (a list
length) and a nonzero integer step: for a positive step it yields
0, step, 2*step, ... below stop (ceil(stop/step) values); for a negative
step it counts downward from 0 while above stop, hence is empty since
stop ≥ 0.  The step = 0 case (ValueError) is excluded by the caller. -/
def pyRangeFrom0 (stop : Nat) (step : Int) : List Nat :=
  if 0 < step then
    (List.range ((stop + step.toNat - 1) / step.toNat)).map
      (fun i => i * step.toNat)
  else []

/-- seller.divide (lines 430-431): for i in range(0, len(lst), n):
yield lst[i : i + n].  The slice lst[i : j] with 0 ≤ i ≤ j is
(lst.take j).drop i.  n = 0 raises ValueError (range step cannot be
zero), modelled as none. -/
def divide (lst : List α) (n : Int) : Option (List (List α)) :=
  if n = 0 then none
  else
    some ((pyRangeFrom0 lst.length n).map
      (fun i => (lst.take (i + n.toNat)).drop i))

/-- Straightforward chunking of a list into pieces of size n (n > 0 in all
uses): used as the reference shape that divide is proved to compute. -/
def chunkList : Nat → List α → List (List α)
  | _, [] => []
  | 0, _ :: _ => []
  | n + 1, x :: xs =>
    (x :: xs).take (n + 1) :: chunkList (n + 1) ((x :: xs).drop (n + 1))
termination_by n l => l.length
decreasing_by simp [List.length_drop]; omega

namespace Seller

/-- A stock update record of seller.create_stocks:
{"offer_id": ..., "stock": ...}. -/
structure Stock where
  offer_id : String
  stock : Int
deriving DecidableEq, Repr

/-- A price update record of seller.create_prices (lines 361-367). -/
structure Price where
  auto_action_enabled : String
  currency_code : String
  offer_id : String
  old_price : String
  price : String
deriving DecidableEq, Repr

end Seller

namespace Market

/-- One element of the items list of a market stock record. -/
structure Item where
  count : Int
  type : String
  updatedAt : String
deriving DecidableEq, Repr

/-- A stock update record of market.create_stocks (lines 284-296). -/
structure Stock where
  sku : String
  warehouseId : String
  items : List Item
deriving DecidableEq, Repr

/-- The nested price object of a market price record. -/
structure PriceBody where
  value : Int
  currencyId : String
deriving DecidableEq, Repr

/-- A price update record of market.create_prices (lines 357-368). -/
structure Price where
  id : String
  price : PriceBody
deriving DecidableEq, Repr

end Market

/-- The matching loop shared verbatim by seller.create_stocks (lines
300-311) and market.create_stocks (lines 273-297), parameterized by the
record constructor mk (code, stock count).  For each row whose code is a
member of the current offer-id list: compute the stock via stockOf (none
models the ValueError of int() and aborts the whole call), emit a record,
and remove the matched id from the list (list.remove deletes the first
occurrence, as List.erase does).  Returns the emitted records in row order
together with the final state of the offer-id list. -/
def matchStocks (mk : String → Int → ρ) :
    List Row → List String → Option (List ρ × List String)
  | [], ids => some ([], ids)
  | w :: ws, ids =>
    if w.code ∈ ids then
      match stockOf w.quantity with
      | none => none
      | some st =>
        match matchStocks mk ws (ids.erase w.code) with
        | none => none
        | some (recs, rem) => some (mk w.code st :: recs, rem)
    else matchStocks mk ws ids

/-- The full create_stocks shape shared by both files: the matched records
in row order, followed by a zero record for every offer id left in the
(mutated) list.  The second component is the final state of the offer-id
list, modelling the in-place mutation of the Python argument. -/
def createStocksGen (mk : String → Int → ρ) (rows : List Row)
    (ids : List String) : Option (List ρ × List String) :=
  (matchStocks mk rows ids).map
    (fun pr => (pr.1 ++ pr.2.map (fun i => mk i 0), pr.2))

/-- seller.create_stocks (lines 264-315). -/
def Seller.create_stocks (rows : List Row) (ids : List String) :
    Option (List Seller.Stock × List String) :=
  createStocksGen (fun c st => ⟨c, st⟩) rows ids

/-- market.create_stocks (lines 221-313); date is the UTC timestamp string
computed once at entry, warehouseId the warehouse argument. -/
def Market.create_stocks (rows : List Row) (ids : List String)
    (warehouseId date : String) : Option (List Market.Stock × List String) :=
  createStocksGen (fun c st => ⟨c, warehouseId, [⟨st, "FIT", date⟩]⟩) rows ids

/-- seller.create_prices (lines 318-369): one record per row whose code is
in the offer-id list (which is not mutated here); other rows are skipped. -/
def Seller.create_prices : List Row → List String → List Seller.Price
  | [], _ => []
  | w :: ws, ids =>
    if w.code ∈ ids then
      ⟨"UNKNOWN", "RUB", w.code, "0", price_conversion w.price⟩ ::
        Seller.create_prices ws ids
    else Seller.create_prices ws ids

/-- market.create_prices (lines 316-370): like the seller variant but the
price value is int(price_conversion(...)); none models the ValueError when
the normalized price string is empty or otherwise unparsable. -/
def Market.create_prices : List Row → List String → Option (List Market.Price)
  | [], _ => some []
  | w :: ws, ids =>
    if w.code ∈ ids then
      match pyInt? (price_conversion w.price), Market.create_prices ws ids with
      | some v, some rest => some (⟨w.code, ⟨v, "RUR"⟩⟩ :: rest)
      | _, _ => none
    else Market.create_prices ws ids

/-- An outbound write call of market.main: a stock batch PUT or a price
batch POST, tagged with the campaign it is issued for. -/
inductive ApiCall
  | stockUpdate (batch : List Market.Stock) (campaign : String)
  | priceUpdate (batch : List Market.Price) (campaign : String)
deriving DecidableEq, Repr

/-- The write calls the body of market.upload_prices (lines 373-418) would
issue if it were executed: one price batch per chunk of divide(prices, 500).
none models a ValueError escaping create_prices. -/
def Market.upload_prices_calls (rows : List Row) (ids : List String)
    (campaign : String) : Option (List ApiCall) :=
  match Market.create_prices rows ids with
  | none => none
  | some prices =>
    match divide prices (500 : Int) with
    | none => none
    | some chunks => some (chunks.map (fun b => ApiCall.priceUpdate b campaign))

/-- The write calls issued by one stock segment of market.main: one stock
batch per chunk of divide(stocks, 2000). -/
def Market.segment_stock_calls (rows : List Row) (ids : List String)
    (warehouseId date campaign : String) : Option (List ApiCall) :=
  match Market.create_stocks rows ids warehouseId date with
  | none => none
  | some (stocks, _) =>
    match divide stocks (2000 : Int) with
    | none => none
    | some chunks => some (chunks.map (fun b => ApiCall.stockUpdate b campaign))

/-- The trace of write calls of market.main (lines 521-553), parameterized
by the data its fetches return (the inventory rows and the FBS and DBS
offer-id lists).  Both segments sit inside one try block, so a failure in
the FBS segment (modelled: create_stocks returns none) ends the trace and
the DBS segment is never reached; the exception is caught at top level, so
main itself returns normally, which is why the trace is a plain list.  The
calls to upload_prices on lines 538 and 547 invoke an async coroutine
function without awaiting it: under Python semantics this only builds a
coroutine object and never executes the body, so those statements
contribute no calls to the trace. -/
def Market.main_calls (rows : List Row) (fbsIds dbsIds : List String)
    (wFbs wDbs date campFbs campDbs : String) : List ApiCall :=
  match Market.segment_stock_calls rows fbsIds wFbs date campFbs with
  | none => []
  | some callsF =>
    match Market.segment_stock_calls rows dbsIds wDbs date campDbs with
    | none => callsF
    | some callsD => callsF ++ callsD

/-- An outbound write call of seller.main: a stock batch or a price batch
POST to the ozon API. -/
inductive SellerCall
  | stockUpdate (batch : List Seller.Stock)
  | priceUpdate (batch : List Seller.Price)
deriving DecidableEq, Repr

/-- The trace of write calls of seller.main (lines 530-550), parameterized
by the data its fetches return (inventory rows and the offer-id list).
create_stocks mutates offer_ids in place, so the later create_prices call on
line 542 sees the leftover list rem; a ValueError inside create_stocks is
caught by the catch-all and truncates the trace.  Stock batches use chunk
size 100, price batches chunk size 900. -/
def Seller.main_calls (rows : List Row) (ids : List String) :
    List SellerCall :=
  match Seller.create_stocks rows ids with
  | none => []
  | some (stocks, rem) =>
    match divide stocks (100 : Int) with
    | none => []
    | some chunks =>
      match divide (Seller.create_prices rows rem) (900 : Int) with
      | none => chunks.map SellerCall.stockUpdate
      | some pchunks =>
        chunks.map SellerCall.stockUpdate ++
          pchunks.map SellerCall.priceUpdate

/-! ### Lemmas about the price normalizer -/

theorem pySplitDot_ne_nil (l : List Char) : pySplitDot l ≠ [] := by
  induction l with
  | nil => simp [pySplitDot]
  | cons c rest ih =>
    simp only [pySplitDot]
    split
    · simp
    · cases h : pySplitDot rest <;> simp

theorem pySplitDot_headD (l : List Char) :
    (pySplitDot l).headD [] = l.takeWhile (fun c => c ≠ '.') := by
  induction l with
  | nil => rfl
  | cons c rest ih =>
    simp only [pySplitDot]
    by_cases hc : c = '.'
    · subst hc
      simp [List.takeWhile_cons]
    · rw [if_neg hc]
      cases h : pySplitDot rest with
      | nil => exact absurd h (pySplitDot_ne_nil rest)
      | cons p ps =>
        rw [h] at ih
        simp only [List.headD] at ih ⊢
        rw [List.takeWhile_cons, if_pos (by simp [hc]), ← ih]

theorem price_conversion_data (s : String) :
    (price_conversion s).data =
      (s.data.takeWhile (fun c => c ≠ '.')).filter Char.isDigit := by
  unfold price_conversion
  rw [pySplitDot_headD]

/-! ### Lemmas about the chunker -/

/-- The ceiling-division recurrence used by the chunk count. -/
theorem ceil_div_succ (k L : Nat) (hL : 1 ≤ L) :
    (L + k) / (k + 1) = ((L - (k + 1)) + k) / (k + 1) + 1 := by
  rcases Nat.le_total L (k + 1) with h | h
  · have h1 : L - (k + 1) = 0 := by omega
    have h3 : L + k = (L - 1) + (k + 1) := by omega
    rw [h1, h3, Nat.add_div_right _ (by omega)]
    rw [Nat.div_eq_of_lt (by omega), Nat.div_eq_of_lt (by omega)]
  · have h3 : L + k = (L - 1) + (k + 1) := by omega
    have h5 : L - (k + 1) + k = L - 1 := by omega
    rw [h3, h5, Nat.add_div_right _ (by omega)]

theorem chunkList_flatten (k : Nat) (l : List α) :
    (chunkList (k + 1) l).flatten = l := by
  generalize hL : l.length = L
  induction L using Nat.strong_induction_on generalizing l with
  | _ L IH =>
    subst hL
    cases l with
    | nil => simp [chunkList]
    | cons x xs =>
      simp only [chunkList, List.flatten_cons]
      rw [IH ((x :: xs).drop (k + 1)).length
        (by simp [List.length_drop]; omega) _ rfl]
      exact List.take_append_drop (k + 1) (x :: xs)

theorem chunkList_length_le (k : Nat) (l : List α) :
    ∀ c ∈ chunkList (k + 1) l, c.length ≤ k + 1 := by
  generalize hL : l.length = L
  induction L using Nat.strong_induction_on generalizing l with
  | _ L IH =>
    subst hL
    cases l with
    | nil => simp [chunkList]
    | cons x xs =>
      simp only [chunkList, List.mem_cons]
      rintro c (rfl | hc)
      · exact List.length_take_le _ _
      · exact IH ((x :: xs).drop (k + 1)).length
          (by simp [List.length_drop]; omega) _ rfl c hc

theorem chunkList_count (k : Nat) (l : List α) :
    (chunkList (k + 1) l).length = (l.length + k) / (k + 1) := by
  generalize hL : l.length = L
  induction L using Nat.strong_induction_on generalizing l with
  | _ L IH =>
    subst hL
    cases l with
    | nil => simp [chunkList, Nat.div_eq_of_lt (by omega : k < k + 1)]
    | cons x xs =>
      simp only [chunkList, List.length_cons]
      rw [IH ((x :: xs).drop (k + 1)).length
        (by simp [List.length_drop]; omega) _ rfl]
      rw [List.length_drop]
      exact (ceil_div_succ k (x :: xs).length (by simp)).symm

theorem rangeChunk (k : Nat) (lst : List α) :
    (List.range ((lst.length + k) / (k + 1))).map
      (fun i => (lst.take (i * (k + 1) + (k + 1))).drop (i * (k + 1))) =
    chunkList (k + 1) lst := by
  generalize hL : lst.length = L
  induction L using Nat.strong_induction_on generalizing lst with
  | _ L IH =>
    subst hL
    cases lst with
    | nil =>
      simp [chunkList, Nat.div_eq_of_lt (by omega : k < k + 1)]
    | cons x xs =>
      rw [ceil_div_succ k (x :: xs).length (by simp), List.range_succ_eq_map,
        List.map_cons, List.map_map]
      simp only [chunkList]
      congr 1
      · simp
      · have hpt : ∀ i ∈ List.range
            (((x :: xs).length - (k + 1) + k) / (k + 1)),
            ((fun i => ((x :: xs).take (i * (k + 1) + (k + 1))).drop
              (i * (k + 1))) ∘ Nat.succ) i =
            (fun i => (((x :: xs).drop (k + 1)).take
              (i * (k + 1) + (k + 1))).drop (i * (k + 1))) i := by
          intro i hi
          simp only [Function.comp, Nat.succ_eq_add_one]
          rw [List.take_drop, List.drop_drop]
          have e1 : (k + 1) + i * (k + 1) = (i + 1) * (k + 1) := by ring
          have e2 : (k + 1) + (i * (k + 1) + (k + 1)) =
              (i + 1) * (k + 1) + (k + 1) := by ring
          rw [e1, e2]
        rw [List.map_congr_left hpt]
        have hIH := IH ((x :: xs).drop (k + 1)).length
          (by simp [List.length_drop]; omega) ((x :: xs).drop (k + 1)) rfl
        rw [List.length_drop] at hIH
        exact hIH

theorem divide_eq_chunkList (lst : List α) (n : Int) (hn : 0 < n) :
    divide lst n = some (chunkList n.toNat lst) := by
  unfold divide
  rw [if_neg (by omega)]
  congr 1
  unfold pyRangeFrom0
  rw [if_pos hn, List.map_map]
  obtain ⟨k, hk⟩ : ∃ k, n.toNat = k + 1 := ⟨n.toNat - 1, by omega⟩
  rw [hk]
  have harg : lst.length + (k + 1) - 1 = lst.length + k := by omega
  rw [harg, ← rangeChunk k lst]
  exact List.map_congr_left (fun i hi => by simp [Function.comp, Nat.add_comm])

/-! ### Lemmas about the stock reconciliation loop -/

/-- The ids emitted by the matching loop together with the leftover ids are
a permutation of the original offer-id list: nothing is lost, nothing is
invented.  proj reads the id back out of an emitted record. -/
theorem matchStocks_perm (mk : String → Int → ρ) (proj : ρ → String)
    (hproj : ∀ c st, proj (mk c st) = c) (rows : List Row) :
    ∀ (ids : List String) (recs : List ρ) (rem : List String),
      matchStocks mk rows ids = some (recs, rem) →
      (recs.map proj ++ rem).Perm ids := by
  induction rows with
  | nil =>
    intro ids recs rem h
    simp only [matchStocks, Option.some.injEq, Prod.mk.injEq] at h
    obtain ⟨rfl, rfl⟩ := h
    simp
  | cons w ws IH =>
    intro ids recs rem h
    simp only [matchStocks] at h
    by_cases hmem : w.code ∈ ids
    · rw [if_pos hmem] at h
      cases hst : stockOf w.quantity with
      | none => rw [hst] at h; simp at h
      | some st =>
        rw [hst] at h
        cases hrec : matchStocks mk ws (ids.erase w.code) with
        | none => rw [hrec] at h; simp at h
        | some pr =>
          obtain ⟨recs', rem'⟩ := pr
          rw [hrec] at h
          simp only [Option.some.injEq, Prod.mk.injEq] at h
          obtain ⟨rfl, rfl⟩ := h
          have hIH := IH (ids.erase w.code) recs' rem' hrec
          simp only [List.map_cons, List.cons_append, hproj]
          exact (hIH.cons w.code).trans (List.perm_cons_erase hmem).symm
    · rw [if_neg hmem] at h
      exact IH ids recs rem h

/-- For a duplicate-free offer-id list, the leftover list returned by the
matching loop is exactly the original list restricted, in order, to the ids
matched by no row. -/
theorem matchStocks_rem (mk : String → Int → ρ) (rows : List Row) :
    ∀ (ids : List String) (recs : List ρ) (rem : List String),
      ids.Nodup → matchStocks mk rows ids = some (recs, rem) →
      rem = ids.filter (fun i => rows.all (fun w => w.code ≠ i)) := by
  induction rows with
  | nil =>
    intro ids recs rem hnd h
    simp only [matchStocks, Option.some.injEq, Prod.mk.injEq] at h
    obtain ⟨rfl, rfl⟩ := h
    simp
  | cons w ws IH =>
    intro ids recs rem hnd h
    simp only [matchStocks] at h
    by_cases hmem : w.code ∈ ids
    · rw [if_pos hmem] at h
      cases hst : stockOf w.quantity with
      | none => rw [hst] at h; simp at h
      | some st =>
        rw [hst] at h
        cases hrec : matchStocks mk ws (ids.erase w.code) with
        | none => rw [hrec] at h; simp at h
        | some pr =>
          obtain ⟨recs', rem'⟩ := pr
          rw [hrec] at h
          simp only [Option.some.injEq, Prod.mk.injEq] at h
          obtain ⟨rfl, rfl⟩ := h
          have hrem := IH (ids.erase w.code) recs' rem' (hnd.erase _) hrec
          rw [hrem, hnd.erase_eq_filter w.code, List.filter_filter]
          apply List.filter_congr
          intro i hi
          by_cases hw : w.code = i
          · subst hw; simp
          · simp [hw, Ne.symm hw]
    · rw [if_neg hmem] at h
      have hrem := IH ids recs rem hnd h
      rw [hrem]
      apply List.filter_congr
      intro i hi
      have hwne : w.code ≠ i := fun he => hmem (he ▸ hi)
      simp [hwne]

/-- Unfolding of the create_stocks shape: a successful run is a successful
matching pass plus the zero records for the leftover ids. -/
theorem createStocksGen_eq (mk : String → Int → ρ) (rows : List Row)
    (ids : List String) (out : List ρ) (rem : List String) :
    createStocksGen mk rows ids = some (out, rem) ↔
    ∃ recs, matchStocks mk rows ids = some (recs, rem) ∧
      out = recs ++ rem.map (fun i => mk i 0) := by
  unfold createStocksGen
  rw [Option.map_eq_some']
  constructor
  · rintro ⟨⟨recs', rem'⟩, hm, he⟩
    have he' : recs' ++ rem'.map (fun i => mk i 0) = out ∧ rem' = rem := by
      simpa using he
    obtain ⟨rfl, rfl⟩ := he'
    exact ⟨recs', hm, rfl⟩
  · rintro ⟨recs, hm, rfl⟩
    exact ⟨(recs, rem), hm, rfl⟩

/-! ### Lemmas about price reconciliation -/

theorem seller_create_prices_eq (rows : List Row) (ids : List String) :
    Seller.create_prices rows ids =
      (rows.filter (fun w => decide (w.code ∈ ids))).map
        (fun w => ⟨"UNKNOWN", "RUB", w.code, "0",
          price_conversion w.price⟩) := by
  induction rows with
  | nil => rfl
  | cons w ws IH =>
    simp only [Seller.create_prices, List.filter_cons]
    by_cases h : w.code ∈ ids
    · simp [h, IH]
    · simp [h, IH]

theorem market_create_prices_eq (rows : List Row) (ids : List String) :
    Market.create_prices rows ids =
      (rows.filter (fun w => decide (w.code ∈ ids))).mapM
        (fun w => (pyInt? (price_conversion w.price)).map
          (fun v => (⟨w.code, ⟨v, "RUR"⟩⟩ : Market.Price))) := by
  induction rows with
  | nil => rfl
  | cons w ws IH =>
    simp only [Market.create_prices, List.filter_cons]
    by_cases h : w.code ∈ ids
    · rw [if_pos h, if_pos (by simp [h] : decide (w.code ∈ ids) = true),
        List.mapM_cons, ← IH]
      cases hp : pyInt? (price_conversion w.price) with
      | none => simp
      | some v =>
        cases hc : Market.create_prices ws ids with
        | none => simp
        | some rest => simp
    · rw [if_neg h, if_neg (by simp [h] : ¬decide (w.code ∈ ids) = true)]
      exact IH

theorem mapM_prices_ids (l : List Row) :
    ∀ out, l.mapM (fun w => (pyInt? (price_conversion w.price)).map
        (fun v => (⟨w.code, ⟨v, "RUR"⟩⟩ : Market.Price))) = some out →
      out.map Market.Price.id = l.map Row.code := by
  induction l with
  | nil =>
    intro out h
    simp only [List.mapM_nil, Option.pure_def, Option.some.injEq] at h
    simp [← h]
  | cons w ws IH =>
    intro out h
    rw [List.mapM_cons] at h
    cases hp : pyInt? (price_conversion w.price) with
    | none => rw [hp] at h; simp at h
    | some v =>
      rw [hp] at h
      cases hc : ws.mapM (fun w => (pyInt? (price_conversion w.price)).map
          (fun v => (⟨w.code, ⟨v, "RUR"⟩⟩ : Market.Price))) with
      | none => rw [hc] at h; simp at h
      | some rest =>
        rw [hc] at h
        simp at h
        subst h
        simp [IH rest hc]

theorem create_prices_nil_of_unmatched (rows : List Row) (ids : List String)
    (h : ∀ w ∈ rows, w.code ∉ ids) : Seller.create_prices rows ids = [] := by
  induction rows with
  | nil => rfl
  | cons w ws IH =>
    simp only [Seller.create_prices]
    rw [if_neg (h w (List.mem_cons_self w ws))]
    exact IH (fun u hu => h u (List.mem_cons_of_mem w hu))

theorem chunkList_ne_nil (k : Nat) (l : List α) (hl : l ≠ []) :
    chunkList (k + 1) l ≠ [] := by
  cases l with
  | nil => exact absurd rfl hl
  | cons x xs => simp [chunkList]

/-- Every call issued by a stock segment of market.main is a stock batch
for that campaign. -/
theorem segment_stock_calls_shape (rows : List Row) (ids : List String)
    (wid date camp : String) :
    ∀ calls, Market.segment_stock_calls rows ids wid date camp = some calls →
      ∀ c ∈ calls, ∃ b, c = ApiCall.stockUpdate b camp := by
  intro calls h c hc
  unfold Market.segment_stock_calls at h
  split at h
  · simp at h
  · split at h
    · simp at h
    · simp only [Option.some.injEq] at h
      subst h
      obtain ⟨b, hb, rfl⟩ := List.mem_map.mp hc
      exact ⟨b, rfl⟩

/-! ### Claim theorems -/

/-- C2: the quantity mapping of the matched branch shared by both
create_stocks variants (seller.py lines 302-309, market.py lines 276-283)
is total and deterministic over the stated cases: the sentinel ">10" maps
to 100, the sentinel "1" maps to 0, and any other quantity string is given
to int(), so a numeric string maps to its integer value and a non-numeric
non-sentinel string is a fatal parse error (none); such an error on a
matched row aborts the whole reconciliation in both variants. -/
theorem claim2_quantity_mapping :
    stockOf ">10" = some 100 ∧
    stockOf "1" = some 0 ∧
    (∀ q, q ≠ ">10" → q ≠ "1" → stockOf q = pyInt? q) ∧
    (∀ c q p ws ids, c ∈ ids → stockOf q = none →
      Seller.create_stocks (⟨c, q, p⟩ :: ws) ids = none ∧
      ∀ wid date,
        Market.create_stocks (⟨c, q, p⟩ :: ws) ids wid date = none) := by
  refine ⟨rfl, rfl, ?_, ?_⟩
  · intro q h1 h2
    simp [stockOf, h1, h2]
  · intro c q p ws ids hmem hq
    constructor
    · simp [Seller.create_stocks, createStocksGen, matchStocks, hmem, hq]
    · intro wid date
      simp [Market.create_stocks, createStocksGen, matchStocks, hmem, hq]

/-- Witness for C2 at concrete inputs: a plain numeric quantity goes
through int(), and an unparsable quantity on a matched row makes both
create_stocks variants fail. -/
theorem claim2_quantity_mapping_witness :
    stockOf "7" = pyInt? "7" ∧
    Seller.create_stocks [⟨"A", "x7", "1"⟩] ["A"] = none ∧
    Market.create_stocks [⟨"A", "x7", "1"⟩] ["A"] "w" "d" = none :=
  ⟨claim2_quantity_mapping.2.2.1 "7" (by decide) (by decide),
    (claim2_quantity_mapping.2.2.2 "A" "x7" "1" [] ["A"] (by decide)
      (by decide)).1,
    (claim2_quantity_mapping.2.2.2 "A" "x7" "1" [] ["A"] (by decide)
      (by decide)).2 "w" "d"⟩

/-- C7: for every string, price_conversion returns the digit characters, in
order, of the prefix of the input before the first dot, with every
non-digit character deleted; the result is all-digit and is empty exactly
when that prefix contains no digit.  The non-string half of the claim (a
TypeError on non-string input) is expressed by the type of the embedding:
price_conversion only accepts a String. -/
theorem claim7_price_conversion (s : String) :
    (price_conversion s).data =
        (s.data.takeWhile (fun c => c ≠ '.')).filter Char.isDigit ∧
    (∀ c ∈ (price_conversion s).data, c.isDigit) ∧
    ((price_conversion s).data = [] ↔
      ∀ c ∈ s.data.takeWhile (fun c => c ≠ '.'), ¬c.isDigit) := by
  refine ⟨price_conversion_data s, ?_, ?_⟩
  · intro c hc
    rw [price_conversion_data] at hc
    exact (List.mem_filter.mp hc).2
  · rw [price_conversion_data]
    exact List.filter_eq_nil_iff

/-- Witness for C7 at a concrete locale-formatted price string. -/
theorem claim7_price_conversion_witness :
    (price_conversion "5x990.00 rub").data =
        (("5x990.00 rub" : String).data.takeWhile
          (fun c => c ≠ '.')).filter Char.isDigit ∧
    (∀ c ∈ (price_conversion "5x990.00 rub").data, c.isDigit) ∧
    ((price_conversion "5x990.00 rub").data = [] ↔
      ∀ c ∈ ("5x990.00 rub" : String).data.takeWhile (fun c => c ≠ '.'),
        ¬c.isDigit) :=
  claim7_price_conversion "5x990.00 rub"

/-- C8: for every positive chunk size n, divide succeeds and produces
chunks that concatenate back to the input in order (no overlaps, no gaps),
each chunk of length at most n, and exactly ceil(length / n) chunks, here
written (length + n - 1) / n. -/
theorem claim8_divide_chunks (lst : List α) (n : Int) (hn : 0 < n) :
    ∃ chunks, divide lst n = some chunks ∧
      chunks.flatten = lst ∧
      (∀ c ∈ chunks, c.length ≤ n.toNat) ∧
      chunks.length = (lst.length + n.toNat - 1) / n.toNat := by
  obtain ⟨k, hk⟩ : ∃ k, n.toNat = k + 1 := ⟨n.toNat - 1, by omega⟩
  refine ⟨chunkList n.toNat lst, divide_eq_chunkList lst n hn, ?_, ?_, ?_⟩
  · rw [hk]; exact chunkList_flatten k lst
  · rw [hk]; exact chunkList_length_le k lst
  · rw [hk, chunkList_count k lst]
    have harg : lst.length + (k + 1) - 1 = lst.length + k := by omega
    rw [harg]

/-- Witness for C8 on a seven-element list with chunk size 3. -/
theorem claim8_divide_chunks_witness :
    (0 : Int) < 3 ∧
    ∃ chunks,
      divide [10, 20, 30, 40, 50, 60, 70] (3 : Int) = some chunks ∧
      chunks.flatten = [10, 20, 30, 40, 50, 60, 70] ∧
      (∀ c ∈ chunks, c.length ≤ (3 : Int).toNat) ∧
      chunks.length =
        (([10, 20, 30, 40, 50, 60, 70] : List Nat).length +
          (3 : Int).toNat - 1) / (3 : Int).toNat :=
  ⟨by decide, claim8_divide_chunks [10, 20, 30, 40, 50, 60, 70] 3 (by decide)⟩

/-- C9: divide with chunk size 0 fails (the range step cannot be zero,
a ValueError), while any negative chunk size yields an empty production
with no error: range(0, len, n) is empty for negative n since len ≥ 0. -/
theorem claim9_divide_edge (lst : List α) (n : Int) (hn : n < 0) :
    divide lst (0 : Int) = none ∧ divide lst n = some [] := by
  constructor
  · simp [divide]
  · unfold divide
    rw [if_neg (by omega)]
    unfold pyRangeFrom0
    rw [if_neg (by omega)]
    rfl

/-- Witness for C9 on a three-element list with n = -2. -/
theorem claim9_divide_edge_witness :
    (-2 : Int) < 0 ∧
    (divide [1, 2, 3] (0 : Int) = none ∧
      divide [1, 2, 3] (-2 : Int) = some []) :=
  ⟨by decide, claim9_divide_edge [1, 2, 3] (-2) (by decide)⟩

/-- C1: for a duplicate-free catalog, a successful create_stocks run (in
either variant) returns the records of catalog-matched rows first, in row
order, followed by one zero-stock record per unmatched catalog id, and the
output offer ids are a permutation of the catalog: every original id
appears exactly once, no duplicates, no omissions, and every emitted record
carries a catalog id (rows whose code is not in the catalog emit nothing). -/
theorem claim1_stock_coverage (rows : List Row) (ids : List String)
    (hnd : ids.Nodup) :
    (∀ out rem, Seller.create_stocks rows ids = some (out, rem) →
      (out.map Seller.Stock.offer_id).Perm ids ∧
      (∀ i ∈ ids, (out.map Seller.Stock.offer_id).count i = 1) ∧
      (∀ r ∈ out, r.offer_id ∈ ids) ∧
      rem = ids.filter (fun i => rows.all (fun w => w.code ≠ i)) ∧
      ∃ matched,
        out = matched ++ rem.map (fun i => (⟨i, 0⟩ : Seller.Stock)) ∧
        matchStocks (fun c st => (⟨c, st⟩ : Seller.Stock)) rows ids =
          some (matched, rem)) ∧
    (∀ wid date out rem,
      Market.create_stocks rows ids wid date = some (out, rem) →
      (out.map Market.Stock.sku).Perm ids ∧
      (∀ i ∈ ids, (out.map Market.Stock.sku).count i = 1)) := by
  constructor
  · intro out rem h
    obtain ⟨recs, hm, hout⟩ := (createStocksGen_eq
      (fun c st => (⟨c, st⟩ : Seller.Stock)) rows ids out rem).mp h
    have hperm0 := matchStocks_perm _ Seller.Stock.offer_id
      (fun _ _ => rfl) rows ids recs rem hm
    have hmapeq : out.map Seller.Stock.offer_id =
        recs.map Seller.Stock.offer_id ++ rem := by
      rw [hout, List.map_append, List.map_map]
      congr 1
      have hcomp : (Seller.Stock.offer_id ∘ fun i => (⟨i, 0⟩ : Seller.Stock))
          = fun i => i := rfl
      rw [hcomp]
      simp
    have hperm : (out.map Seller.Stock.offer_id).Perm ids := by
      rw [hmapeq]; exact hperm0
    refine ⟨hperm, ?_, ?_, ?_, ⟨recs, hout, hm⟩⟩
    · intro i hi
      rw [hperm.count_eq i]
      exact List.count_eq_one_of_mem hnd hi
    · intro r hr
      exact hperm.subset (List.mem_map_of_mem _ hr)
    · exact matchStocks_rem _ rows ids recs rem hnd hm
  · intro wid date out rem h
    obtain ⟨recs, hm, hout⟩ := (createStocksGen_eq _ rows ids out rem).mp h
    have hperm0 := matchStocks_perm _ Market.Stock.sku
      (fun _ _ => rfl) rows ids recs rem hm
    have hmapeq : out.map Market.Stock.sku =
        recs.map Market.Stock.sku ++ rem := by
      rw [hout, List.map_append, List.map_map]
      congr 1
      have hcomp : (Market.Stock.sku ∘ fun i =>
          (⟨i, wid, [⟨0, "FIT", date⟩]⟩ : Market.Stock)) = fun i => i := rfl
      rw [hcomp]
      simp
    have hperm : (out.map Market.Stock.sku).Perm ids := by
      rw [hmapeq]; exact hperm0
    refine ⟨hperm, fun i hi => ?_⟩
    rw [hperm.count_eq i]
    exact List.count_eq_one_of_mem hnd hi

/-- Witness for C1 at the end-to-end scenario of the specification: one
matched row, catalog of two ids. -/
theorem claim1_stock_coverage_witness :
    (([⟨"63433", 100⟩, ⟨"99999", 0⟩] : List Seller.Stock).map
        Seller.Stock.offer_id).Perm ["63433", "99999"] ∧
    ["99999"] = (["63433", "99999"] : List String).filter
        (fun i => [(⟨"63433", ">10", "2x240.00 rub"⟩ : Row)].all
          (fun w => w.code ≠ i)) :=
  ⟨((claim1_stock_coverage [⟨"63433", ">10", "2x240.00 rub"⟩]
      ["63433", "99999"] (by decide)).1
      [⟨"63433", 100⟩, ⟨"99999", 0⟩] ["99999"] (by decide)).1,
    ((claim1_stock_coverage [⟨"63433", ">10", "2x240.00 rub"⟩]
      ["63433", "99999"] (by decide)).1
      [⟨"63433", 100⟩, ⟨"99999", 0⟩] ["99999"] (by decide)).2.2.2.1⟩

/-- C10: a successful create_stocks run leaves the offer-id collection (the
returned second component, which models the in-place mutation of the Python
list argument) equal to the original list restricted, in order, to the ids
matched by no row: exactly the row-matched ids have been removed, each
remaining id occurs exactly once (for a duplicate-free input in keeping
with the data model, where the catalog is a set), and relative order is
preserved (the result is a sublist of the input); the rows input is not
touched (the embedding is pure and reads it only). -/
theorem claim10_offer_ids_mutation (rows : List Row) (ids : List String)
    (hnd : ids.Nodup) :
    (∀ out rem, Seller.create_stocks rows ids = some (out, rem) →
      rem = ids.filter (fun i => rows.all (fun w => w.code ≠ i)) ∧
      rem.Nodup ∧ rem.Sublist ids) ∧
    (∀ wid date out rem,
      Market.create_stocks rows ids wid date = some (out, rem) →
      rem = ids.filter (fun i => rows.all (fun w => w.code ≠ i)) ∧
      rem.Nodup ∧ rem.Sublist ids) := by
  constructor
  · intro out rem h
    obtain ⟨recs, hm, -⟩ := (createStocksGen_eq _ rows ids out rem).mp h
    have hr := matchStocks_rem _ rows ids recs rem hnd hm
    exact ⟨hr, by rw [hr]; exact hnd.filter _,
      by rw [hr]; exact List.filter_sublist ids⟩
  · intro wid date out rem h
    obtain ⟨recs, hm, -⟩ := (createStocksGen_eq _ rows ids out rem).mp h
    have hr := matchStocks_rem _ rows ids recs rem hnd hm
    exact ⟨hr, by rw [hr]; exact hnd.filter _,
      by rw [hr]; exact List.filter_sublist ids⟩

/-- Witness for C10: the matched id "63433" is removed and only the
unmatched "99999" survives, once, in place. -/
theorem claim10_offer_ids_mutation_witness :
    ["99999"] = (["63433", "99999"] : List String).filter
        (fun i => [(⟨"63433", "5", "1"⟩ : Row)].all (fun w => w.code ≠ i)) ∧
    (["99999"] : List String).Nodup ∧
    (["99999"] : List String).Sublist ["63433", "99999"] :=
  (claim10_offer_ids_mutation [⟨"63433", "5", "1"⟩] ["63433", "99999"]
    (by decide)).1 [⟨"63433", 5⟩, ⟨"99999", 0⟩] ["99999"] (by decide)

/-- C3: both create_prices variants emit exactly one record per inventory
row whose code is in the offer-id set, in row order, skip all other rows,
and run no leftover pass: the seller variant equals a map over the matched
rows, with offer_id the row code and price the normalized price string plus
the fixed schema constants; the market variant equals the monadic map that
additionally parses the normalized price with int() (failing, like the
source, when a matched row price has no digits), and when it returns, its
record ids are exactly the matched row codes in order. -/
theorem claim3_create_prices (rows : List Row) (ids : List String) :
    Seller.create_prices rows ids =
      (rows.filter (fun w => decide (w.code ∈ ids))).map
        (fun w => ⟨"UNKNOWN", "RUB", w.code, "0",
          price_conversion w.price⟩) ∧
    Market.create_prices rows ids =
      (rows.filter (fun w => decide (w.code ∈ ids))).mapM
        (fun w => (pyInt? (price_conversion w.price)).map
          (fun v => (⟨w.code, ⟨v, "RUR"⟩⟩ : Market.Price))) ∧
    (∀ out, Market.create_prices rows ids = some out →
      out.map Market.Price.id =
        (rows.filter (fun w => decide (w.code ∈ ids))).map Row.code) := by
  refine ⟨seller_create_prices_eq rows ids,
    market_create_prices_eq rows ids, ?_⟩
  intro out h
  rw [market_create_prices_eq rows ids] at h
  exact mapM_prices_ids _ out h

/-- Witness for C3 on one matched row. -/
theorem claim3_create_prices_witness :
    Seller.create_prices [⟨"136748", "6", "9x990.00 rub"⟩] ["136748"] =
      (([⟨"136748", "6", "9x990.00 rub"⟩] : List Row).filter
        (fun w => decide (w.code ∈ (["136748"] : List String)))).map
        (fun w => ⟨"UNKNOWN", "RUB", w.code, "0",
          price_conversion w.price⟩) ∧
    ([(⟨"136748", ⟨9990, "RUR"⟩⟩ : Market.Price)]).map Market.Price.id =
      (([⟨"136748", "6", "9x990.00 rub"⟩] : List Row).filter
        (fun w => decide (w.code ∈ (["136748"] : List String)))).map
        Row.code :=
  ⟨(claim3_create_prices [⟨"136748", "6", "9x990.00 rub"⟩] ["136748"]).1,
    (claim3_create_prices [⟨"136748", "6", "9x990.00 rub"⟩] ["136748"]).2.2
      [⟨"136748", ⟨9990, "RUR"⟩⟩] (by decide)⟩

/-- C4: seller.main passes to create_prices the very offer-id list that
create_stocks has already emptied of all row-matched ids, and create_prices
matches rows by the identical membership test; for a duplicate-free catalog
every id left in the list is matched by no row, so no row can pass the
test: the price payload is always empty and seller.main issues no
price-update call. -/
theorem claim4_seller_prices_empty (rows : List Row) (ids : List String)
    (hnd : ids.Nodup) :
    (∀ out rem, Seller.create_stocks rows ids = some (out, rem) →
      Seller.create_prices rows rem = []) ∧
    (∀ b, SellerCall.priceUpdate b ∉ Seller.main_calls rows ids) := by
  have key : ∀ out rem, Seller.create_stocks rows ids = some (out, rem) →
      Seller.create_prices rows rem = [] := by
    intro out rem h
    obtain ⟨recs, hm, -⟩ := (createStocksGen_eq _ rows ids out rem).mp h
    have hr := matchStocks_rem _ rows ids recs rem hnd hm
    subst hr
    apply create_prices_nil_of_unmatched
    intro w hw hmem
    have h2 := (List.mem_filter.mp hmem).2
    rw [List.all_eq_true] at h2
    have h3 := h2 w hw
    simp at h3
  refine ⟨key, ?_⟩
  intro b hb
  unfold Seller.main_calls at hb
  split at hb
  · simp at hb
  · rename_i stocks rem heq
    rw [key stocks rem heq,
      divide_eq_chunkList ([] : List Seller.Price) 900 (by omega)] at hb
    split at hb
    · simp at hb
    · simp [chunkList] at hb

/-- Witness for C4: with the spec scenario inputs the leftover list is
["99999"], no row matches it, and the main trace holds no price call. -/
theorem claim4_seller_prices_empty_witness :
    Seller.create_prices [⟨"63433", ">10", "5.0"⟩] ["99999"] = [] ∧
    SellerCall.priceUpdate [] ∉
      Seller.main_calls [⟨"63433", ">10", "5.0"⟩] ["63433", "99999"] :=
  ⟨(claim4_seller_prices_empty [⟨"63433", ">10", "5.0"⟩] ["63433", "99999"]
      (by decide)).1 [⟨"63433", 100⟩, ⟨"99999", 0⟩] ["99999"] (by decide),
    (claim4_seller_prices_empty [⟨"63433", ">10", "5.0"⟩] ["63433", "99999"]
      (by decide)).2 []⟩

/-- C5: market.main invokes the async coroutine function upload_prices
without awaiting it (and main is not async), so under Python semantics the
coroutine body never executes: the trace of a main run contains no
price-update call for any input, while the stock segments run normally
(when both succeed the trace is exactly the FBS stock batches followed by
the DBS stock batches); had the body run, it would have issued one
price batch per 500-record chunk. -/
theorem claim5_unawaited_upload_prices (rows : List Row)
    (fbsIds dbsIds : List String) (wF wD date cF cD : String) :
    (∀ b c, ApiCall.priceUpdate b c ∉
        Market.main_calls rows fbsIds dbsIds wF wD date cF cD) ∧
    (∀ callsF callsD,
        Market.segment_stock_calls rows fbsIds wF date cF = some callsF →
        Market.segment_stock_calls rows dbsIds wD date cD = some callsD →
        Market.main_calls rows fbsIds dbsIds wF wD date cF cD =
          callsF ++ callsD) ∧
    (∀ prices, Market.create_prices rows fbsIds = some prices →
        prices ≠ [] →
        ∃ calls, Market.upload_prices_calls rows fbsIds cF = some calls ∧
          calls ≠ [] ∧ ∀ c ∈ calls, ∃ b, c = ApiCall.priceUpdate b cF) := by
  refine ⟨?_, ?_, ?_⟩
  · intro b c hb
    unfold Market.main_calls at hb
    split at hb
    · simp at hb
    · rename_i callsF heqF
      split at hb
      · obtain ⟨b', h'⟩ :=
          segment_stock_calls_shape rows fbsIds wF date cF callsF heqF _ hb
        exact absurd h' (by simp)
      · rename_i callsD heqD
        rcases List.mem_append.mp hb with h | h
        · obtain ⟨b', h'⟩ :=
            segment_stock_calls_shape rows fbsIds wF date cF callsF heqF _ h
          exact absurd h' (by simp)
        · obtain ⟨b', h'⟩ :=
            segment_stock_calls_shape rows dbsIds wD date cD callsD heqD _ h
          exact absurd h' (by simp)
  · intro callsF callsD hF hD
    unfold Market.main_calls
    rw [hF, hD]
  · intro prices hp hne
    unfold Market.upload_prices_calls
    rw [hp]
    dsimp only
    rw [divide_eq_chunkList prices 500 (by omega)]
    dsimp only
    refine ⟨_, rfl, ?_, ?_⟩
    · have h500 : (500 : Int).toNat = 499 + 1 := rfl
      rw [h500]
      simp only [ne_eq, List.map_eq_nil_iff]
      exact chunkList_ne_nil 499 prices hne
    · intro c hc
      obtain ⟨b, hb, rfl⟩ := List.mem_map.mp hc
      exact ⟨b, rfl⟩

/-- Witness for C5: one parseable row, FBS catalog ["A"], empty DBS
catalog; the trace is the single FBS stock batch and holds no price call,
though the dead upload_prices body would have pushed one price batch. -/
theorem claim5_unawaited_upload_prices_witness :
    ApiCall.priceUpdate [] "cf" ∉
      Market.main_calls [⟨"A", "5", "7.0"⟩] ["A"] [] "wf" "wd" "d"
        "cf" "cd" ∧
    Market.main_calls [⟨"A", "5", "7.0"⟩] ["A"] [] "wf" "wd" "d" "cf" "cd" =
      [ApiCall.stockUpdate [⟨"A", "wf", [⟨5, "FIT", "d"⟩]⟩] "cf"] ++ [] ∧
    ∃ calls, Market.upload_prices_calls [⟨"A", "5", "7.0"⟩] ["A"] "cf" =
        some calls ∧ calls ≠ [] ∧
        ∀ c ∈ calls, ∃ b, c = ApiCall.priceUpdate b "cf" :=
  ⟨(claim5_unawaited_upload_prices [⟨"A", "5", "7.0"⟩] ["A"] [] "wf" "wd"
      "d" "cf" "cd").1 [] "cf",
    (claim5_unawaited_upload_prices [⟨"A", "5", "7.0"⟩] ["A"] [] "wf" "wd"
      "d" "cf" "cd").2.1
      [ApiCall.stockUpdate [⟨"A", "wf", [⟨5, "FIT", "d"⟩]⟩] "cf"] []
      (by decide) (by decide),
    (claim5_unawaited_upload_prices [⟨"A", "5", "7.0"⟩] ["A"] [] "wf" "wd"
      "d" "cf" "cd").2.2 [⟨"A", ⟨7, "RUR"⟩⟩] (by decide) (by decide)⟩

/-- C6 counterexample: inventory [("A", quantity "abc")], FBS catalog
["A"], DBS catalog ["B"].  The FBS segment fails (int("abc") raises) inside
the single try block of market.main, so the run issues no call at all,
although the DBS segment on its own would succeed and issue one stock
batch: a failure in the FBS segment does prevent the DBS segment from being
attempted, contradicting the claim. -/
theorem claim6_counterexample :
    Market.main_calls [⟨"A", "abc", "1"⟩] ["A"] ["B"] "wf" "wd" "d"
        "cf" "cd" = [] ∧
    Market.segment_stock_calls [⟨"A", "abc", "1"⟩] ["B"] "wd" "d" "cd" =
      some [ApiCall.stockUpdate [⟨"B", "wd", [⟨0, "FIT", "d"⟩]⟩] "cd"] := by
  constructor
  · rfl
  · rfl

/-- C6 amended: both mains catch errors at top level (the trace model
returns a plain list: main itself does not propagate), but market.main
wraps the FBS and DBS segments in one shared try block, so an error in the
FBS segment ends the run before any DBS call: if FBS reconciliation fails
the whole trace is empty, and if the FBS segment succeeds while the DBS
one fails the trace is the FBS calls only. -/
theorem claim6_single_try_block (rows : List Row)
    (fbsIds dbsIds : List String) (wF wD date cF cD : String) :
    (Market.create_stocks rows fbsIds wF date = none →
      Market.main_calls rows fbsIds dbsIds wF wD date cF cD = []) ∧
    (∀ callsF,
      Market.segment_stock_calls rows fbsIds wF date cF = some callsF →
      Market.segment_stock_calls rows dbsIds wD date cD = none →
      Market.main_calls rows fbsIds dbsIds wF wD date cF cD = callsF) := by
  constructor
  · intro h
    unfold Market.main_calls Market.segment_stock_calls
    rw [h]
  · intro callsF hF hD
    unfold Market.main_calls
    rw [hF, hD]

/-- Witness for the amended C6: an FBS failure empties the whole trace; an
FBS success followed by a DBS failure keeps only the FBS calls. -/
theorem claim6_single_try_block_witness :
    Market.main_calls [⟨"A", "abc", "1"⟩] ["A"] ["B"] "wf" "wd" "d"
        "cf" "cd" = [] ∧
    Market.main_calls [⟨"A", "5", "1"⟩, ⟨"B", "abc", "1"⟩] ["A"] ["B"]
        "wf" "wd" "d" "cf" "cd" =
      [ApiCall.stockUpdate [⟨"A", "wf", [⟨5, "FIT", "d"⟩]⟩] "cf"] :=
  ⟨(claim6_single_try_block [⟨"A", "abc", "1"⟩] ["A"] ["B"] "wf" "wd" "d"
      "cf" "cd").1 (by decide),
    (claim6_single_try_block [⟨"A", "5", "1"⟩, ⟨"B", "abc", "1"⟩] ["A"]
      ["B"] "wf" "wd" "d" "cf" "cd").2
      [ApiCall.stockUpdate [⟨"A", "wf", [⟨5, "FIT", "d"⟩]⟩] "cf"]
      (by decide) (by decide)⟩
